import Mathlib

/-!
Verification of the metatree posterior-inference engine of BayesML
(`bayesml/metatree/_metatree.py`) against its natural-language specification.

The Python source is shallowly embedded: trees become an inductive type,
in-place mutation becomes explicit state passing, numpy float arithmetic is
modelled over `ℚ` where only field operations and comparisons occur and over
`ℝ` where `exp` / `log` appear, and the pseudo-random draws consumed by the
samplers are abstracted as explicit input streams.
-/

mutual
/-- A sampled metatree as far as structural comparison is concerned
(`_Node` of `_metatree.py`): a leaf, or an inner node with a split feature
`k`, continuous thresholds, and ordered children.  The `hG` payload models
per-node state (`h_g`, sub-model, ...) that `_compare_metatree_recursion`
ignores; it lets two structurally equal trees be distinct objects.  The
children array is represented by the cons-list type `MTreeList` (isomorphic
to `List MTree`) so that equality of trees stays decidable. -/
inductive MTree where
  | leaf (hG : ℚ)
  | node (hG : ℚ) (k : ℕ) (thresholds : List ℚ) (children : MTreeList)
deriving DecidableEq

/-- Children array of an inner `MTree` node. -/
inductive MTreeList where
  | nil
  | cons (head : MTree) (tail : MTreeList)
deriving DecidableEq
end

/-- numpy `isclose` with the default tolerances `rtol = 1e-5`, `atol = 1e-8`:
`|a - b| <= atol + rtol * |b|`. -/
def npIsClose (a b : ℚ) : Bool :=
  decide (|a - b| ≤ 1 / 100000000 + (1 / 100000) * |b|)

/-- numpy `allclose` on equal-length 1-d arrays: pointwise `npIsClose`. -/
def npAllclose (l1 l2 : List ℚ) : Bool :=
  l1.length == l2.length && (l1.zip l2).all (fun p => npIsClose p.1 p.2)

mutual
/-- `_compare_metatree_recursion(self, node1, node2)`: both leaves are equal;
a leaf never equals an inner node; two inner nodes are equal when they split
on the same feature (with `np.allclose` thresholds if the feature is
continuous, `k < c_dim_continuous`) and all corresponding children are
recursively equal.  The source iterates `range(c_num_children_vec[node1.k])`
over the children arrays; under the structural invariant both arrays have
exactly that length, which `compareChildren` walks in lockstep. -/
def compareMetatreeRecursion (dimCont : ℕ) : MTree → MTree → Bool
  | .leaf _, .leaf _ => true
  | .leaf _, .node _ _ _ _ => false
  | .node _ _ _ _, .leaf _ => false
  | .node _ k1 th1 c1, .node _ k2 th2 c2 =>
    if k1 < dimCont then
      if k1 != k2 || !(npAllclose th1 th2) then false
      else compareChildren dimCont c1 c2
    else
      if k1 != k2 then false
      else compareChildren dimCont c1 c2

/-- Lockstep recursive comparison of two children arrays. -/
def compareChildren (dimCont : ℕ) : MTreeList → MTreeList → Bool
  | .nil, .nil => true
  | .nil, .cons _ _ => false
  | .cons _ _, .nil => false
  | .cons a as, .cons b bs =>
      compareMetatreeRecursion dimCont a b && compareChildren dimCont as bs
end

/-- One slot of the working arrays of `_marge_metatrees`: the tree (or `none`
once the slot has been merged away, `metatree_list[i] = None`) paired with its
probability (set to `-1` on the merged slot). -/
abbrev MargeEntry := Option MTree × ℚ

/-- The inner loop of `_marge_metatrees` for a fixed outer index: scan the
slots after the current one for the first live tree structurally equal to `t`;
on a hit add the current probability `p` into that slot
(`metatree_prob_vec[j] += metatree_prob_vec[i]`) and report success, otherwise
report that no later duplicate exists.  Merged (`none`) slots are skipped;
the source never revisits them because a slot is only marked at its own outer
iteration. -/
def mergeInto (cmp : MTree → MTree → Bool) (t : MTree) (p : ℚ) :
    List MargeEntry → Option (List MargeEntry)
  | [] => none
  | (some t', q) :: rest =>
    if cmp t t' then some ((some t', q + p) :: rest)
    else
      match mergeInto cmp t p rest with
      | some rest' => some ((some t', q) :: rest')
      | none => none
  | (none, q) :: rest =>
    match mergeInto cmp t p rest with
    | some rest' => some ((none, q) :: rest')
    | none => none

/-- The outer loop of `_marge_metatrees`.  Each outer iteration looks at one
slot; if a later structurally equal live tree exists the current slot is
marked merged (`metatree_list[i] = None`, `metatree_prob_vec[i] = -1`) after
its mass has been moved forward by `mergeInto`.  The fuel argument is the
number of remaining outer iterations; it is called with the list length, which
is exactly enough because `mergeInto` preserves length. -/
def margeAux (cmp : MTree → MTree → Bool) : ℕ → List MargeEntry → List MargeEntry
  | 0, l => l
  | _ + 1, [] => []
  | fuel + 1, (none, q) :: rest => (none, q) :: margeAux cmp fuel rest
  | fuel + 1, (some t, q) :: rest =>
    match mergeInto cmp t q rest with
    | some rest' => ((none : Option MTree), (-1 : ℚ)) :: margeAux cmp fuel rest'
    | none => (some t, q) :: margeAux cmp fuel rest

/-- `_marge_metatrees(self, metatree_list, metatree_prob_vec)`: run the
merging double loop, then keep the trees that are not `None`
(`[tmp for tmp in metatree_list if tmp != None]`) and the probabilities above
`-0.5` (`metatree_prob_vec[metatree_prob_vec > -0.5]`). -/
def margeMetatrees (dimCont : ℕ) (trees : List MTree) (probs : List ℚ) :
    List MTree × List ℚ :=
  let entries := (trees.zip probs).map (fun e => ((some e.1 : Option MTree), e.2))
  let final := margeAux (compareMetatreeRecursion dimCont) entries.length entries
  (final.filterMap Prod.fst,
   (final.map Prod.snd).filter (fun p => (-1 / 2 : ℚ) < p))

/-- The output block of `_MTMCMC` (also `_REMTMCMC`): normalize the retained
multiplicity counters into probabilities by dividing by their sum
(`_tmp_metatree_prob_vec /= _tmp_metatree_prob_vec.sum()`), then merge
structurally equal trees with `_marge_metatrees`. -/
def mtmcmcOutput (dimCont : ℕ) (trees : List MTree) (counts : List ℚ) :
    List MTree × List ℚ :=
  margeMetatrees dimCont trees (counts.map (fun c => c / counts.sum))

/-- Python `l[-1] = a` on a (nonempty) list. -/
def setLast {α : Type} (l : List α) (a : α) : List α :=
  l.dropLast ++ [a]

/-- Python `l[-1] += 1` on a (nonempty) list of counters. -/
def incLast (l : List ℕ) : List ℕ :=
  setLast l (l.getLastD 0 + 1)

/-- The acceptance-rate bookkeeping shared by `_mh_step_truncated` and read by
`_update_g_max`: on accept `numerator = rho * numerator + 1` and
`denominator = rho * denominator + 1`; on reject only the denominator gains
the `+ 1`. -/
noncomputable def tunerBookkeep (rho : ℝ) (accept : Bool) (num den : ℝ) : ℝ × ℝ :=
  if accept then (rho * num + 1, rho * den + 1) else (rho * num, rho * den + 1)

/-- The state read and written by `_update_g_max`: the decayed acceptance
counters `_numerator` / `_denominator`, the smoothing accumulators
`_g_max_accumulated` / `_g_max_denominator`, and the proposal ceiling
`_g_max` itself. -/
structure TunerState where
  numerator : ℝ
  denominator : ℝ
  gMaxAccumulated : ℝ
  gMaxDenominator : ℝ
  gMax : ℝ

/-- `_update_g_max(self)`: compute `p_hat = numerator / denominator`; push
`g_max` down by the factor `p_obj / p_hat` when acceptance is above target,
otherwise pull `1 - g_max` down by the factor `(1 - p_obj) / (1 - p_hat)`;
then smooth the raw value through the exponential average with decay `phi`. -/
noncomputable def updateGMax (pObj phi : ℝ) (s : TunerState) : TunerState :=
  let pHat := s.numerator / s.denominator
  let gMaxNew :=
    if pObj < pHat then s.gMax * pObj / pHat
    else 1 - (1 - s.gMax) * (1 - pObj) / (1 - pHat)
  let acc := phi * s.gMaxAccumulated + gMaxNew
  let den := phi * s.gMaxDenominator + 1
  ⟨s.numerator, s.denominator, acc, den, acc / den⟩

/-- One burn-in iteration of the `_MTMCMC` driver as seen by the tuner: the
acceptance bookkeeping of `_mh_step_truncated` (the accept/reject outcome of
the Metropolis-Hastings test abstracted as a boolean) followed by
`_update_g_max`. -/
noncomputable def tunerStep (rho phi pObj : ℝ) (accept : Bool) (s : TunerState) : TunerState :=
  let nd := tunerBookkeep rho accept s.numerator s.denominator
  updateGMax pObj phi ⟨nd.1, nd.2, s.gMaxAccumulated, s.gMaxDenominator, s.gMax⟩

/-- The tuner initialisation in `_MTMCMC`: `_denominator = 0.0`,
`_numerator = _denominator * p_obj`, `_g_max = g_max`,
`_g_max_denominator = 0`, `_g_max_accumulated = g_max * _g_max_denominator`. -/
noncomputable def tunerInit (g0 pObj : ℝ) : TunerState :=
  ⟨0 * pObj, 0, g0 * 0, 0, g0⟩

/-- The burn-in phase of `_MTMCMC` as seen by the proposal-ceiling tuner: fold
`tunerStep` over the sequence of accept/reject outcomes. -/
noncomputable def tunerRun (rho phi pObj g0 : ℝ) (outcomes : List Bool) : TunerState :=
  outcomes.foldl (fun s b => tunerStep rho phi pObj b s) (tunerInit g0 pObj)

mutual
/-- A tree carrying the `division_flag` trail consumed by
`_calc_truncated_posterior_lean`: a node with `k is None` (a leaf), a node
whose split decision was freshly resampled (`division_flag` false), or a node
whose split was reused from the previous tree (`division_flag` true) with its
children. -/
inductive FNode where
  | leafF
  | undivided (hG : ℝ)
  | divided (hG : ℝ) (children : FNodeList)

/-- Children array of an `FNode`. -/
inductive FNodeList where
  | nil
  | cons (head : FNode) (tail : FNodeList)
end

mutual
/-- `_calc_truncated_posterior_lean(self, node)`: `0` at a `k is None` node;
`log (min (h_g, g_max)) + Σ children` where the division flag is set;
`log (1 - min (h_g, g_max))` where the chain stopped reusing structure.  This
is the truncated proposal log-probability `T` of a tree. -/
noncomputable def calcTruncatedPosterior (gMax : ℝ) : FNode → ℝ
  | .leafF => 0
  | .undivided hG => Real.log (1 - min hG gMax)
  | .divided hG children =>
      Real.log (min hG gMax) + calcTruncatedPosteriorSum gMax children

/-- The accumulation `tmp += self._calc_truncated_posterior_lean(children[i])`
over a children array. -/
noncomputable def calcTruncatedPosteriorSum (gMax : ℝ) : FNodeList → ℝ
  | .nil => 0
  | .cons c cs => calcTruncatedPosterior gMax c + calcTruncatedPosteriorSum gMax cs
end

/-- The chain state mutated by `_mh_step_truncated`: the accepted-tree list
`_tmp_metatree_list`, the multiplicity counters `_tmp_metatree_count_list`,
the last accepted log marginal likelihood `_l_last`, the log `_l_list`, the
counters `_num_proposed` / `_num_accepted`, and the tuner's acceptance
accumulators `_numerator` / `_denominator`. -/
structure MHChainState where
  metatreeList : List MTree
  countList : List ℕ
  lLast : ℝ
  lLog : List ℝ
  numProposed : ℕ
  numAccepted : ℕ
  numerator : ℝ
  denominator : ℝ

/-- `_mh_step_truncated(self, x_continuous, x_categorical, y)`.  The proposed
tree, its log marginal likelihood `_l_new`, the truncated proposal
log-probabilities `_t_posteror_new` / `_t_posteror_last` (values of
`calcTruncatedPosterior` on the proposed and the last accepted tree), and the
uniform draw `self.rng.random()` are inputs here because they are produced by
the data- and RNG-driven generator `_generate_truncated_and_update`.  Accept
when `u < exp(_l_new - _t_posteror_last - _l_last + _t_posteror_new)`: push
the new tree with a fresh multiplicity counter of 1; otherwise increment the
multiplicity counter of the current tree. -/
noncomputable def mhStepTruncated (rho : ℝ) (newTree : MTree)
    (lNew tNew tLast u : ℝ) (s : MHChainState) : MHChainState :=
  if u < Real.exp (lNew - tLast - s.lLast + tNew) then
    { metatreeList := s.metatreeList ++ [newTree]
      countList := s.countList ++ [1]
      lLast := lNew
      lLog := s.lLog ++ [lNew]
      numProposed := s.numProposed + 1
      numAccepted := s.numAccepted + 1
      numerator := (tunerBookkeep rho true s.numerator s.denominator).1
      denominator := (tunerBookkeep rho true s.numerator s.denominator).2 }
  else
    { s with
      countList := incLast s.countList
      lLog := s.lLog ++ [s.lLast]
      numProposed := s.numProposed + 1
      numerator := (tunerBookkeep rho false s.numerator s.denominator).1
      denominator := (tunerBookkeep rho false s.numerator s.denominator).2 }

/-- The `_MTMCMC` driver state relevant to its control flow, with `steps`
instrumenting how many `_mh_step_truncated` calls were executed. -/
structure MCMCState where
  metatreeList : List MTree
  countList : List ℕ
  numProposed : ℕ
  numAccepted : ℕ
  steps : ℕ

/-- The effect of one `_mh_step_truncated` call on the driver state, with the
proposed tree and the accept/reject outcome of the Metropolis-Hastings test
abstracted as inputs (they are produced by the RNG- and data-driven proposal
generator; see `mhStepTruncated` for the detailed acceptance rule).  Both
branches increment `_num_proposed` by exactly one. -/
def mhStepOutcome (newTree : MTree) (accept : Bool) (s : MCMCState) : MCMCState :=
  if accept then
    { metatreeList := s.metatreeList ++ [newTree]
      countList := s.countList ++ [1]
      numProposed := s.numProposed + 1
      numAccepted := s.numAccepted + 1
      steps := s.steps + 1 }
  else
    { s with
      countList := incLast s.countList
      numProposed := s.numProposed + 1
      steps := s.steps + 1 }

/-- A `while self._num_proposed < target:` loop of `_MTMCMC` running
`_mh_step_truncated` each iteration.  The fuel argument bounds the number of
iterations; every call below passes `target` itself, which is always enough
because `_num_proposed` starts nonnegative and strictly increases by one per
iteration, so the loop semantics coincide with the source's `while`. -/
def mhLoop (props : ℕ → MTree) (accs : ℕ → Bool) (target : ℕ) :
    ℕ → MCMCState → MCMCState
  | 0, s => s
  | fuel + 1, s =>
    if s.numProposed < target then
      mhLoop props accs target fuel (mhStepOutcome (props s.steps) (accs s.steps) s)
    else s

/-- The control flow of `_MTMCMC(self, x_continuous, x_categorical, y,
burn_in, num_metatrees, ...)` after the initial tree has been generated:
start from `_tmp_metatree_list = [root]`, `_tmp_metatree_count_list = [1]`,
`_num_proposed = _num_accepted = 1`; if `c_dim_features == 1` return the
single initial tree with weight vector `[1]` immediately; otherwise run the
burn-in loop `while _num_proposed < burn_in`, record
`tmp = _num_accepted - 1`, reset the last multiplicity counter to 1, run the
sampling loop `while _num_proposed < burn_in + num_metatrees`, and hand the
retained slice of trees and counters to the normalizing / merging output
block.  The second component counts the executed `_mh_step_truncated` calls. -/
def mtmcmc (dimCont dimFeatures burnIn numMetatrees : ℕ) (init : MTree)
    (props : ℕ → MTree) (accs : ℕ → Bool) : (List MTree × List ℚ) × ℕ :=
  let s0 : MCMCState := ⟨[init], [1], 1, 1, 0⟩
  if dimFeatures = 1 then (([init], [1]), 0)
  else
    let s1 := mhLoop props accs burnIn burnIn s0
    let tmp := s1.numAccepted - 1
    let s2 := mhLoop props accs (burnIn + numMetatrees) (burnIn + numMetatrees)
      { s1 with countList := setLast s1.countList 1 }
    (mtmcmcOutput dimCont (s2.metatreeList.drop tmp)
      ((s2.countList.drop tmp).map (fun c => (c : ℚ))), s2.steps)

/-- The posterior fields of `LearnModel` that `update_posterior` assigns:
`hn_metatree_list` and `hn_metatree_prob_vec`. -/
structure PosteriorState where
  hnMetatreeList : List MTree
  hnMetatreeProbVec : List ℚ

/-- The branch of `update_posterior` selected by `alg_type`. -/
inductive AlgBranch where
  | mtrf
  | givenMT
  | mtmcmcAlg
  | remtmcmcAlg

/-- The exception taxonomy of `bayesml._exceptions` relevant here. -/
inductive MTError where
  | parameterFormatError (msg : String)
  | dataFormatError (msg : String)

/-- The `alg_type` dispatch of `update_posterior` (the `if`/`elif` chain):
the source has no `else` branch, so any other string selects no branch. -/
def updatePosteriorDispatch (algType : String) : Option AlgBranch :=
  if algType = "MTRF" then some .mtrf
  else if algType = "given_MT" then some .givenMT
  else if algType = "MTMCMC" then some .mtmcmcAlg
  else if algType = "REMTMCMC" then some .remtmcmcAlg
  else none

/-- `update_posterior(self, x_continuous, x_categorical, y, alg_type,
**kwargs)` after the data check: run the selected branch (whose effect on the
posterior state, or raised error, is abstracted as `runBranch`), and when no
branch matches fall through to `return self` leaving `hn_metatree_list` and
`hn_metatree_prob_vec` untouched and raising nothing. -/
def updatePosteriorRun (algType : String)
    (runBranch : AlgBranch → PosteriorState → Except MTError PosteriorState)
    (s : PosteriorState) : Except MTError PosteriorState :=
  match updatePosteriorDispatch algType with
  | some b => runBranch b s
  | none => .ok s

/-- The `_REMTMCMC` driver state touched by
`_replica_exchange_memory_efficient`: per-chain sample histories
`_tmp_metatree_lists`, multiplicity counters `_tmp_metatree_count_lists`,
current log likelihoods `_l_lasts`, the temperature schedule `_beta_vec`, the
diagnostic logs `_exchange_list` and `_l_list`, and `_num_chains`. -/
structure REState where
  lists : List (List MTree)
  countLists : List (List ℤ)
  lLasts : List ℝ
  betaVec : List ℝ
  exchangeList : List ℤ
  lLog : List ℝ
  numChains : ℕ

/-- One swap attempt of `_replica_exchange_memory_efficient`: for the adjacent
pair `(j, j+1)` (in the source `j = self.rng.choice(self._num_chains-1)`, a
uniform draw over adjacent pairs, here an input), accept when
`u < exp(l[j]*beta[j+1] + l[j+1]*beta[j] - l[j]*beta[j] - l[j+1]*beta[j+1])`.
On acceptance the two chains' current trees (the last entries of their
histories) and stored log likelihoods are exchanged; the pair touching the
untempered chain (`j == num_chains - 2`) additionally grows chain `j+1`'s
history because its samples feed the ensemble.  `beta_vec` is not written. -/
noncomputable def replicaSwapAttempt (s : REState) (j : ℕ) (u : ℝ) : REState :=
  let lj := s.lLasts.getD j 0
  let lj1 := s.lLasts.getD (j + 1) 0
  let bj := s.betaVec.getD j 0
  let bj1 := s.betaVec.getD (j + 1) 0
  if u < Real.exp (lj * bj1 + lj1 * bj - lj * bj - lj1 * bj1) then
    if j = s.numChains - 2 then
      let listJ := s.lists.getD j []
      let listJ1 := s.lists.getD (j + 1) [] ++ [(s.lists.getD j []).getLastD (.leaf 0)]
      let listJ' := setLast listJ (listJ1.getD (listJ1.length - 2) (.leaf 0))
      let cntJ1 := s.countLists.getD (j + 1) []
      { s with
        exchangeList := s.exchangeList ++ [(j : ℤ)]
        lists := (s.lists.set (j + 1) listJ1).set j listJ'
        countLists :=
          (s.countLists.set j (setLast (s.countLists.getD j []) 1)).set (j + 1)
            (setLast cntJ1 (cntJ1.getLastD 0 - 1) ++ [1])
        lLasts := (s.lLasts.set j lj1).set (j + 1) lj
        lLog := s.lLog ++ [lj] }
    else
      let listJ := s.lists.getD j []
      let listJ1 := s.lists.getD (j + 1) []
      let tmp := listJ1.getLastD (.leaf 0)
      { s with
        exchangeList := s.exchangeList ++ [(j : ℤ)]
        lists := (s.lists.set (j + 1) (setLast listJ1 (listJ.getLastD (.leaf 0)))).set j
          (setLast listJ tmp)
        countLists :=
          (s.countLists.set j (setLast (s.countLists.getD j []) 1)).set (j + 1)
            (setLast (s.countLists.getD (j + 1) []) 1)
        lLasts := (s.lLasts.set j lj1).set (j + 1) lj }
  else s

/-- `_replica_exchange_memory_efficient(self)`: append the round marker `-1`
to `_exchange_list`, then perform `num_exchange` swap attempts (each draw
supplying the adjacent pair index and the uniform variate). -/
noncomputable def replicaExchange (draws : List (ℕ × ℝ)) (s : REState) : REState :=
  draws.foldl (fun st d => replicaSwapAttempt st d.1 d.2)
    { s with exchangeList := s.exchangeList ++ [(-1 : ℤ)] }

/-- The current tree of chain `i`: the last entry of its history. -/
def currentTree (s : REState) (i : ℕ) : MTree :=
  (s.lists.getD i []).getLastD (.leaf 0)

/-- One observation row: continuous features, categorical features, target. -/
structure Obs where
  xc : List ℚ
  xcat : List ℕ
  y : ℚ
deriving DecidableEq

mutual
/-- A tree shape walked by `_update_posterior_recursion_batch`: a declared
leaf, or an inner node with its prior split probability `h_g`, split feature
`k`, thresholds, and children.  Cached fields
(`log_marginal_likelihood`, `log_children_marginal_likelihood`) are the
values this recursion computes and are returned rather than stored. -/
inductive PTree where
  | mkLeaf (hG : ℝ)
  | mkNode (hG : ℝ) (k : ℕ) (thresholds : List ℚ) (children : PTreeList)

/-- Children array of a `PTree` node. -/
inductive PTreeList where
  | nil
  | cons (head : PTree) (tail : PTreeList)
end

/-- Length of a children array. -/
def PTreeList.length : PTreeList → ℕ
  | .nil => 0
  | .cons _ cs => cs.length + 1

/-- The data partition routed to child `i` of a node splitting on feature `k`
with `n` children: for a continuous feature (`k < c_dim_continuous`) the
half-open interval test against `thresholds` (first child unbounded below,
last child unbounded above); for a categorical feature, exact equality of
`x_categorical[:, k - c_dim_continuous]` with the child index. -/
def partitionObs (dimCont k : ℕ) (th : List ℚ) (n i : ℕ) (data : List Obs) :
    List Obs :=
  if k < dimCont then
    if i = 0 then
      data.filter (fun o => decide (o.xc.getD k 0 < th.getD (i + 1) 0))
    else if i = n - 1 then
      data.filter (fun o => decide (th.getD i 0 ≤ o.xc.getD k 0))
    else
      data.filter (fun o =>
        decide (th.getD i 0 ≤ o.xc.getD k 0) && decide (o.xc.getD k 0 < th.getD (i + 1) 0))
  else
    data.filter (fun o => o.xcat.getD (k - dimCont) 0 == i)

/-- numpy `logaddexp`. -/
noncomputable def logaddexp (a b : ℝ) : ℝ :=
  Real.log (Real.exp a + Real.exp b)

mutual
/-- `_update_posterior_recursion_batch(self, node, x_continuous,
x_categorical, y)`.  The sub-model is external (§6 of the spec): absorbing a
data batch at a leaf candidate and returning
`sub_model.calc_log_marginal_likelihood()` is abstracted as `leafLL` applied
to the routed rows.  A leaf returns its marginal likelihood; an inner node
recurses into its children over the partitioned data, forms
`tmp1 = log(h_g) + Σ log_children_marginal_likelihood`, the leaf value, and
`tmp2 = logaddexp(log(1 - h_g) + log_marginal_likelihood, tmp1)`, sets
`h_g = exp(tmp1 - tmp2)`, and returns `tmp2`. -/
noncomputable def updRecBatch (dimCont : ℕ) (leafLL : List Obs → ℝ) :
    PTree → List Obs → PTree × ℝ
  | .mkLeaf hG, data => (.mkLeaf hG, leafLL data)
  | .mkNode hG k th children, data =>
    let r := updChildren dimCont leafLL k th children.length data 0 children
    let tmp1 := Real.log hG + r.2.sum
    let tmp2 := logaddexp (Real.log (1 - hG) + leafLL data) tmp1
    (.mkNode (Real.exp (tmp1 - tmp2)) k th r.1, tmp2)

/-- The `for i in range(c_num_children_vec[node.k])` loop of
`_update_posterior_recursion_batch`, walking the children from index `i`: a
child whose routed partition is nonempty (`np.any(indices)`) is recursed
into; an empty child is left untouched and its entry of
`log_children_marginal_likelihood` is set to `0.0` exactly. -/
noncomputable def updChildren (dimCont : ℕ) (leafLL : List Obs → ℝ) (k : ℕ)
    (th : List ℚ) (n : ℕ) (data : List Obs) :
    ℕ → PTreeList → PTreeList × List ℝ
  | _, .nil => (.nil, [])
  | i, .cons c cs =>
    let part := partitionObs dimCont k th n i data
    let r := if part.isEmpty then (c, (0 : ℝ)) else updRecBatch dimCont leafLL c part
    let rest := updChildren dimCont leafLL k th n data (i + 1) cs
    (.cons r.1 rest.1, r.2 :: rest.2)
end

/-- The `h_g` stored at the root of a tree. -/
def hGRoot : PTree → ℝ
  | .mkLeaf hG => hG
  | .mkNode hG _ _ _ => hG

/-- The `beta_vec` range check of `_REMTMCMC`:
`np.any(self._beta_vec < 0) or np.any(self._beta_vec > 1)` raises
`ParameterFormatError`. -/
def betaVecRaises (bv : List ℚ) : Bool :=
  bv.any (fun b => decide (b < 0)) || bv.any (fun b => decide (1 < b))

/-- Whether the `beta_vec` handling of `_REMTMCMC` raises a
`ParameterFormatError`: the range check sits after the
`if self.c_dim_features == 1: return ...` early return, and only runs when a
`beta_vec` was supplied (`if beta_vec is not None`).  No monotonicity check
and no check on the last element exist in the source. -/
def remtmcmcBetaPhase (dimFeatures : ℕ) (betaVec : Option (List ℚ)) : Bool :=
  if dimFeatures = 1 then false
  else
    match betaVec with
    | none => false
    | some bv => betaVecRaises bv

/-- Verification-side helper: the total probability mass sitting in the
not-yet-merged (live) slots of the working arrays of `_marge_metatrees`. -/
def liveSum : List MargeEntry → ℚ
  | [] => 0
  | e :: rest => (if e.1.isSome then e.2 else 0) + liveSum rest

/-- Verification-side helper: the trees of the live slots, in order. -/
def liveTrees (l : List MargeEntry) : List MTree :=
  l.filterMap Prod.fst

/-- Verification-side helper: the invariant of one working slot of
`_marge_metatrees` — a merged slot carries exactly `-1`, a live slot carries
a nonnegative mass. -/
def MargeEntryInv (e : MargeEntry) : Prop :=
  (e.1 = none → e.2 = -1) ∧ (e.1 ≠ none → 0 ≤ e.2)

/-- Verification-side helper: the invariant maintained across burn-in by the
proposal-ceiling tuner — the acceptance counters satisfy
`0 ≤ numerator ≤ denominator`, the smoothing accumulators satisfy
`0 ≤ accumulated ≤ denominator`, and the ceiling sits in `[0, 1]`. -/
def TunerInv (s : TunerState) : Prop :=
  0 ≤ s.numerator ∧ s.numerator ≤ s.denominator ∧
  0 ≤ s.gMaxAccumulated ∧ s.gMaxAccumulated ≤ s.gMaxDenominator ∧
  0 ≤ s.gMax ∧ s.gMax ≤ 1

/-! ## Lemmas about the ensemble compactor -/

theorem mergeInto_length {cmp : MTree → MTree → Bool} {t : MTree} {p : ℚ} :
    ∀ {l l' : List MargeEntry}, mergeInto cmp t p l = some l' → l'.length = l.length := by
  intro l
  induction l with
  | nil => intro l' h; simp [mergeInto] at h
  | cons e rest ih =>
    intro l' h
    obtain ⟨o, q⟩ := e
    cases o with
    | none =>
      rw [mergeInto] at h
      cases hr : mergeInto cmp t p rest with
      | none => rw [hr] at h; exact absurd h (by simp)
      | some rest' =>
        rw [hr] at h
        simp only [Option.some.injEq] at h
        subst h
        simp [ih hr]
    | some t' =>
      rw [mergeInto] at h
      by_cases hc : cmp t t'
      · simp only [hc, if_true, Option.some.injEq] at h
        subst h
        simp
      · simp only [hc, if_false, Bool.false_eq_true] at h
        cases hr : mergeInto cmp t p rest with
        | none => rw [hr] at h; exact absurd h (by simp)
        | some rest' =>
          rw [hr] at h
          simp only [Option.some.injEq] at h
          subst h
          simp [ih hr]

theorem mergeInto_liveSum {cmp : MTree → MTree → Bool} {t : MTree} {p : ℚ} :
    ∀ {l l' : List MargeEntry}, mergeInto cmp t p l = some l' →
      liveSum l' = liveSum l + p := by
  intro l
  induction l with
  | nil => intro l' h; simp [mergeInto] at h
  | cons e rest ih =>
    intro l' h
    obtain ⟨o, q⟩ := e
    cases o with
    | none =>
      rw [mergeInto] at h
      cases hr : mergeInto cmp t p rest with
      | none => rw [hr] at h; exact absurd h (by simp)
      | some rest' =>
        rw [hr] at h
        simp only [Option.some.injEq] at h
        subst h
        simp only [liveSum, Option.isSome_none, if_false]
        rw [ih hr]
        ring
    | some t' =>
      rw [mergeInto] at h
      by_cases hc : cmp t t'
      · simp only [hc, if_true, Option.some.injEq] at h
        subst h
        simp only [liveSum, Option.isSome_some, if_true]
        ring
      · simp only [hc, if_false, Bool.false_eq_true] at h
        cases hr : mergeInto cmp t p rest with
        | none => rw [hr] at h; exact absurd h (by simp)
        | some rest' =>
          rw [hr] at h
          simp only [Option.some.injEq] at h
          subst h
          simp only [liveSum, Option.isSome_some, if_true]
          rw [ih hr]
          ring

theorem mergeInto_liveTrees {cmp : MTree → MTree → Bool} {t : MTree} {p : ℚ} :
    ∀ {l l' : List MargeEntry}, mergeInto cmp t p l = some l' →
      liveTrees l' = liveTrees l := by
  intro l
  induction l with
  | nil => intro l' h; simp [mergeInto] at h
  | cons e rest ih =>
    intro l' h
    obtain ⟨o, q⟩ := e
    cases o with
    | none =>
      rw [mergeInto] at h
      cases hr : mergeInto cmp t p rest with
      | none => rw [hr] at h; exact absurd h (by simp)
      | some rest' =>
        rw [hr] at h
        simp only [Option.some.injEq] at h
        subst h
        simpa [liveTrees, List.filterMap_cons] using ih hr
    | some t' =>
      rw [mergeInto] at h
      by_cases hc : cmp t t'
      · simp only [hc, if_true, Option.some.injEq] at h
        subst h
        simp [liveTrees, List.filterMap_cons]
      · simp only [hc, if_false, Bool.false_eq_true] at h
        cases hr : mergeInto cmp t p rest with
        | none => rw [hr] at h; exact absurd h (by simp)
        | some rest' =>
          rw [hr] at h
          simp only [Option.some.injEq] at h
          subst h
          simpa [liveTrees, List.filterMap_cons] using ih hr

theorem mergeInto_inv {cmp : MTree → MTree → Bool} {t : MTree} {p : ℚ}
    (hp : 0 ≤ p) :
    ∀ {l l' : List MargeEntry}, mergeInto cmp t p l = some l' →
      (∀ e ∈ l, MargeEntryInv e) → ∀ e ∈ l', MargeEntryInv e := by
  intro l
  induction l with
  | nil => intro l' h; simp [mergeInto] at h
  | cons e rest ih =>
    intro l' h hl
    obtain ⟨o, q⟩ := e
    cases o with
    | none =>
      rw [mergeInto] at h
      cases hr : mergeInto cmp t p rest with
      | none => rw [hr] at h; exact absurd h (by simp)
      | some rest' =>
        rw [hr] at h
        simp only [Option.some.injEq] at h
        subst h
        intro e he
        rcases List.mem_cons.mp he with he | he
        · subst he; exact hl _ (List.mem_cons_self _ _)
        · exact ih hr (fun e' he' => hl _ (List.mem_cons_of_mem _ he')) _ he
    | some t' =>
      rw [mergeInto] at h
      by_cases hc : cmp t t'
      · simp only [hc, if_true, Option.some.injEq] at h
        subst h
        intro e he
        rcases List.mem_cons.mp he with he | he
        · subst he
          refine ⟨by simp, fun _ => ?_⟩
          have := (hl _ (List.mem_cons_self _ _)).2 (by simp)
          exact add_nonneg this hp
        · exact hl _ (List.mem_cons_of_mem _ he)
      · simp only [hc, if_false, Bool.false_eq_true] at h
        cases hr : mergeInto cmp t p rest with
        | none => rw [hr] at h; exact absurd h (by simp)
        | some rest' =>
          rw [hr] at h
          simp only [Option.some.injEq] at h
          subst h
          intro e he
          rcases List.mem_cons.mp he with he | he
          · subst he; exact hl _ (List.mem_cons_self _ _)
          · exact ih hr (fun e' he' => hl _ (List.mem_cons_of_mem _ he')) _ he

theorem mergeInto_none {cmp : MTree → MTree → Bool} {t : MTree} {p : ℚ} :
    ∀ {l : List MargeEntry}, mergeInto cmp t p l = none →
      ∀ t' ∈ liveTrees l, cmp t t' = false := by
  intro l
  induction l with
  | nil => intro _ t' ht'; simp [liveTrees] at ht'
  | cons e rest ih =>
    intro h t' ht'
    obtain ⟨o, q⟩ := e
    cases o with
    | none =>
      rw [mergeInto] at h
      cases hr : mergeInto cmp t p rest with
      | some rest' => rw [hr] at h; exact absurd h (by simp)
      | none =>
        simp only [liveTrees, List.filterMap_cons] at ht'
        exact ih hr t' ht'
    | some t'' =>
      rw [mergeInto] at h
      by_cases hc : cmp t t''
      · simp [hc] at h
      · simp only [hc, if_false, Bool.false_eq_true] at h
        cases hr : mergeInto cmp t p rest with
        | some rest' => rw [hr] at h; exact absurd h (by simp)
        | none =>
          simp only [liveTrees, List.filterMap_cons] at ht'
          rcases List.mem_cons.mp ht' with he | he
          · subst he; exact Bool.eq_false_iff.mpr hc
          · exact ih hr t' he

theorem margeAux_liveSum {cmp : MTree → MTree → Bool} :
    ∀ (fuel : ℕ) (l : List MargeEntry), l.length ≤ fuel →
      liveSum (margeAux cmp fuel l) = liveSum l := by
  intro fuel
  induction fuel with
  | zero =>
    intro l hl
    rw [margeAux]
  | succ fuel ih =>
    intro l hl
    match l with
    | [] => rw [margeAux]
    | (none, q) :: rest =>
      rw [margeAux]
      simp only [liveSum, Option.isSome_none, if_false]
      rw [ih rest (by simpa using Nat.le_of_succ_le_succ hl)]
    | (some t, q) :: rest =>
      rw [margeAux]
      cases hr : mergeInto cmp t q rest with
      | some rest' =>
        simp only [liveSum]
        have hlen : rest'.length ≤ fuel := by
          rw [mergeInto_length hr]
          simpa using Nat.le_of_succ_le_succ hl
        rw [ih rest' hlen, mergeInto_liveSum hr]
        simp [add_comm]
      | none =>
        simp only [liveSum, Option.isSome_some, if_true]
        rw [ih rest (by simpa using Nat.le_of_succ_le_succ hl)]

theorem margeAux_inv {cmp : MTree → MTree → Bool} :
    ∀ (fuel : ℕ) (l : List MargeEntry), l.length ≤ fuel →
      (∀ e ∈ l, MargeEntryInv e) → ∀ e ∈ margeAux cmp fuel l, MargeEntryInv e := by
  intro fuel
  induction fuel with
  | zero =>
    intro l hl hinv
    rw [margeAux]
    exact hinv
  | succ fuel ih =>
    intro l hl hinv
    match l with
    | [] => rw [margeAux]; exact hinv
    | (none, q) :: rest =>
      rw [margeAux]
      intro e he
      rcases List.mem_cons.mp he with he | he
      · subst he; exact hinv _ (List.mem_cons_self _ _)
      · exact ih rest (by simpa using Nat.le_of_succ_le_succ hl)
          (fun e' he' => hinv _ (List.mem_cons_of_mem _ he')) _ he
    | (some t, q) :: rest =>
      rw [margeAux]
      cases hr : mergeInto cmp t q rest with
      | some rest' =>
        intro e he
        rcases List.mem_cons.mp he with he | he
        · subst he; exact ⟨fun _ => rfl, by simp⟩
        · have hq : (0 : ℚ) ≤ q := (hinv _ (List.mem_cons_self _ _)).2 (by simp)
          have hlen : rest'.length ≤ fuel := by
            rw [mergeInto_length hr]
            simpa using Nat.le_of_succ_le_succ hl
          exact ih rest' hlen
            (mergeInto_inv hq hr (fun e' he' => hinv _ (List.mem_cons_of_mem _ he'))) _ he
      | none =>
        intro e he
        rcases List.mem_cons.mp he with he | he
        · subst he; exact hinv _ (List.mem_cons_self _ _)
        · exact ih rest (by simpa using Nat.le_of_succ_le_succ hl)
            (fun e' he' => hinv _ (List.mem_cons_of_mem _ he')) _ he

theorem margeAux_liveTrees_subset {cmp : MTree → MTree → Bool} :
    ∀ (fuel : ℕ) (l : List MargeEntry), l.length ≤ fuel →
      ∀ t ∈ liveTrees (margeAux cmp fuel l), t ∈ liveTrees l := by
  intro fuel
  induction fuel with
  | zero =>
    intro l hl t ht
    rw [margeAux] at ht
    exact ht
  | succ fuel ih =>
    intro l hl t ht
    match l with
    | [] => rw [margeAux] at ht; exact ht
    | (none, q) :: rest =>
      rw [margeAux] at ht
      simp only [liveTrees, List.filterMap_cons] at ht ⊢
      exact ih rest (by simpa using Nat.le_of_succ_le_succ hl) t ht
    | (some t', q) :: rest =>
      rw [margeAux] at ht
      cases hr : mergeInto cmp t' q rest with
      | some rest' =>
        rw [hr] at ht
        simp only [liveTrees, List.filterMap_cons] at ht ⊢
        have hlen : rest'.length ≤ fuel := by
          rw [mergeInto_length hr]
          simpa using Nat.le_of_succ_le_succ hl
        have := ih rest' hlen t ht
        rw [mergeInto_liveTrees hr] at this
        exact List.mem_cons_of_mem _ this
      | none =>
        rw [hr] at ht
        simp only [liveTrees, List.filterMap_cons] at ht ⊢
        rcases List.mem_cons.mp ht with he | he
        · exact List.mem_cons.mpr (Or.inl he)
        · exact List.mem_cons_of_mem _ (ih rest (by simpa using Nat.le_of_succ_le_succ hl) t he)

theorem margeAux_pairwise {cmp : MTree → MTree → Bool} :
    ∀ (fuel : ℕ) (l : List MargeEntry), l.length ≤ fuel →
      List.Pairwise (fun a b => cmp a b = false) (liveTrees (margeAux cmp fuel l)) := by
  intro fuel
  induction fuel with
  | zero =>
    intro l hl
    interval_cases hll : l.length
    · rw [List.length_eq_zero] at hll
      subst hll
      rw [margeAux]
      simp [liveTrees]
  | succ fuel ih =>
    intro l hl
    match l with
    | [] => rw [margeAux]; simp [liveTrees]
    | (none, q) :: rest =>
      rw [margeAux]
      simp only [liveTrees, List.filterMap_cons]
      exact ih rest (by simpa using Nat.le_of_succ_le_succ hl)
    | (some t', q) :: rest =>
      rw [margeAux]
      cases hr : mergeInto cmp t' q rest with
      | some rest' =>
        simp only [liveTrees, List.filterMap_cons]
        have hlen : rest'.length ≤ fuel := by
          rw [mergeInto_length hr]
          simpa using Nat.le_of_succ_le_succ hl
        exact ih rest' hlen
      | none =>
        simp only [liveTrees, List.filterMap_cons]
        rw [List.pairwise_cons]
        constructor
        · intro a ha
          have ha' : a ∈ liveTrees rest :=
            margeAux_liveTrees_subset fuel rest (by simpa using Nat.le_of_succ_le_succ hl) a ha
          exact mergeInto_none hr a ha'
        · exact ih rest (by simpa using Nat.le_of_succ_le_succ hl)

theorem filter_sum_of_inv :
    ∀ (l : List MargeEntry), (∀ e ∈ l, MargeEntryInv e) →
      ((l.map Prod.snd).filter (fun p => (-1 / 2 : ℚ) < p)).sum = liveSum l := by
  intro l
  induction l with
  | nil => intro _; simp [liveSum]
  | cons e rest ih =>
    intro hinv
    obtain ⟨o, q⟩ := e
    have hrest : ∀ e' ∈ rest, MargeEntryInv e' :=
      fun e' he' => hinv _ (List.mem_cons_of_mem _ he')
    cases o with
    | none =>
      have hq : q = -1 := (hinv _ (List.mem_cons_self _ _)).1 rfl
      subst hq
      simp only [List.map_cons, List.filter_cons, liveSum, Option.isSome_none,
        Bool.false_eq_true, if_false]
      rw [if_neg (by norm_num), ih hrest]
      simp
    | some t =>
      have hq : (0 : ℚ) ≤ q := (hinv _ (List.mem_cons_self _ _)).2 (by simp)
      simp only [List.map_cons, List.filter_cons, liveSum, Option.isSome_some, if_true]
      rw [if_pos (by simpa using lt_of_lt_of_le (by norm_num : (-1 / 2 : ℚ) < 0) hq)]
      simp [ih hrest]

theorem liveSum_map_some (l : List (MTree × ℚ)) :
    liveSum (l.map fun e => ((some e.1 : Option MTree), e.2)) = (l.map Prod.snd).sum := by
  induction l with
  | nil => simp [liveSum]
  | cons e rest ih => simp [liveSum, ih]

/-- C8: for every input whose probability vector is nonnegative and sums
to 1, the compactor `_marge_metatrees` returns a probability vector that
still sums to 1 and a tree list in which no two trees are structurally equal
in the sense of `_compare_metatree_recursion`. -/
theorem margeMetatrees_sum_one_and_no_duplicates
    (dimCont : ℕ) (trees : List MTree) (probs : List ℚ)
    (hlen : trees.length = probs.length)
    (hpos : ∀ p ∈ probs, 0 ≤ p)
    (hsum : probs.sum = 1) :
    (margeMetatrees dimCont trees probs).2.sum = 1 ∧
    List.Pairwise (fun a b => compareMetatreeRecursion dimCont a b = false)
      (margeMetatrees dimCont trees probs).1 := by
  have hinv : ∀ e ∈ (trees.zip probs).map
      (fun e => ((some e.1 : Option MTree), e.2)), MargeEntryInv e := by
    intro e he
    obtain ⟨⟨t, p⟩, hmem, rfl⟩ := List.mem_map.mp he
    exact ⟨by simp, fun _ => hpos p (List.of_mem_zip hmem).2⟩
  constructor
  · show (((margeAux (compareMetatreeRecursion dimCont) _ _).map Prod.snd).filter _).sum = 1
    rw [filter_sum_of_inv _ (margeAux_inv _ _ (le_refl _) hinv),
      margeAux_liveSum _ _ (le_refl _), liveSum_map_some,
      List.map_snd_zip _ _ (le_of_eq hlen.symm), hsum]
  · exact margeAux_pairwise _ _ (le_refl _)

/-- Witness for C8 at a concrete input: two structurally equal leaves with
probability one half each. -/
theorem margeMetatrees_sum_one_and_no_duplicates_witness :
    (margeMetatrees 0 [MTree.leaf 0, MTree.leaf 0] [1 / 2, 1 / 2]).2.sum = 1 ∧
    List.Pairwise (fun a b => compareMetatreeRecursion 0 a b = false)
      (margeMetatrees 0 [MTree.leaf 0, MTree.leaf 0] [1 / 2, 1 / 2]).1 :=
  margeMetatrees_sum_one_and_no_duplicates 0 _ _ rfl
    (by
      intro p hp
      rcases List.mem_cons.mp hp with rfl | hp
      · norm_num
      · rcases List.mem_cons.mp hp with rfl | hp
        · norm_num
        · simp at hp)
    (by norm_num)

/-- C1 (amended): for a pair of structurally equal sampled trees the output
block of `_MTMCMC` normalizes the multiplicities by their sum and then merges
the pair by retaining the SECOND tree, summing the first multiplicity into
it: the result is the later tree with probability 1. -/
theorem mtmcmcOutput_merges_into_later_tree
    (dimCont : ℕ) (t0 t1 : MTree) (p0 p1 : ℚ)
    (hcmp : compareMetatreeRecursion dimCont t0 t1 = true)
    (hp0 : 0 < p0) (hp1 : 0 < p1) :
    mtmcmcOutput dimCont [t0, t1] [p0, p1] = ([t1], [1]) := by
  have hs : p0 + p1 ≠ 0 := by positivity
  have hx : p1 / (p0 + p1) + p0 / (p0 + p1) = 1 := by
    rw [div_add_div_same, add_comm, div_self hs]
  simp only [mtmcmcOutput, margeMetatrees, List.sum_cons, List.sum_nil, add_zero,
    List.map_cons, List.map_nil, List.zip_cons_cons, List.zip_nil_right,
    List.length_cons, List.length_nil]
  rw [margeAux]
  rw [mergeInto]
  rw [hcmp]
  simp only [if_true, hx]
  rw [margeAux]
  rw [mergeInto]
  rw [margeAux]
  simp only [List.filterMap_cons, List.map_cons, List.map_nil, List.filter_cons,
    List.filter_nil]
  norm_num

/-- Counterexample to C1 as stated: for the structurally equal pair
`[leaf 0, leaf 1]` with multiplicities `[1, 2]` the compactor returns the
SECOND tree `leaf 1` (with the summed, normalized probability 1), not the
first tree `leaf 0` that the claim says is retained. -/
theorem mtmcmcOutput_retains_second_counterexample :
    mtmcmcOutput 0 [MTree.leaf 0, MTree.leaf 1] [1, 2] = ([MTree.leaf 1], [1]) ∧
    (MTree.leaf 1 : MTree) ≠ MTree.leaf 0 := by
  constructor
  · norm_num [mtmcmcOutput, margeMetatrees, margeAux, mergeInto, compareMetatreeRecursion,
      List.filterMap_cons, List.filterMap_nil]
  · intro h
    cases h

/-- Witness for the amended C1 at a concrete input. -/
theorem mtmcmcOutput_merges_into_later_tree_witness :
    mtmcmcOutput 0 [MTree.leaf 5, MTree.leaf 7] [1, 2] = ([MTree.leaf 7], [1]) :=
  mtmcmcOutput_merges_into_later_tree 0 _ _ _ _ rfl (by norm_num) (by norm_num)

/-! ## Lemmas about the proposal-ceiling tuner -/

theorem tunerBookkeep_inv (rho : ℝ) (hrho : 0 ≤ rho) (b : Bool) (num den : ℝ)
    (h0 : 0 ≤ num) (hnd : num ≤ den) :
    0 ≤ (tunerBookkeep rho b num den).1 ∧
    (tunerBookkeep rho b num den).1 ≤ (tunerBookkeep rho b num den).2 ∧
    0 < (tunerBookkeep rho b num den).2 := by
  have hden0 : 0 ≤ den := le_trans h0 hnd
  have h1 : 0 ≤ rho * num := mul_nonneg hrho h0
  have h2 : rho * num ≤ rho * den := mul_le_mul_of_nonneg_left hnd hrho
  have h3 : 0 ≤ rho * den := mul_nonneg hrho hden0
  cases b <;> simp only [tunerBookkeep, if_true, if_false, Bool.false_eq_true] <;>
    refine ⟨by linarith, by linarith, by linarith⟩

theorem updateGMax_inv (pObj phi : ℝ) (hphi : 0 ≤ phi) (hp0 : 0 < pObj)
    (hp1 : pObj < 1) (s : TunerState) (hs : TunerInv s)
    (hden : 0 < s.denominator) : TunerInv (updateGMax pObj phi s) := by
  obtain ⟨hn0, hnd, ha0, had, hg0, hg1⟩ := hs
  have hgden0 : 0 ≤ s.gMaxDenominator := le_trans ha0 had
  have hph0 : 0 ≤ s.numerator / s.denominator := div_nonneg hn0 hden.le
  have hph1 : s.numerator / s.denominator ≤ 1 := (div_le_one hden).mpr hnd
  have hgNew : 0 ≤ (if pObj < s.numerator / s.denominator
        then s.gMax * pObj / (s.numerator / s.denominator)
        else 1 - (1 - s.gMax) * (1 - pObj) / (1 - s.numerator / s.denominator)) ∧
      (if pObj < s.numerator / s.denominator
        then s.gMax * pObj / (s.numerator / s.denominator)
        else 1 - (1 - s.gMax) * (1 - pObj) / (1 - s.numerator / s.denominator)) ≤ 1 := by
    split_ifs with h
    · have hph : 0 < s.numerator / s.denominator := lt_trans hp0 h
      constructor
      · exact div_nonneg (mul_nonneg hg0 hp0.le) hph.le
      · have hle : s.gMax * pObj ≤ s.gMax * (s.numerator / s.denominator) :=
          mul_le_mul_of_nonneg_left h.le hg0
        have := (div_le_one hph).mpr (le_trans hle (by nlinarith))
        exact this
    · have hple : s.numerator / s.denominator ≤ pObj := not_lt.mp h
      have h1p : 0 < 1 - s.numerator / s.denominator := by linarith
      have hfrac0 : 0 ≤ (1 - s.gMax) * (1 - pObj) / (1 - s.numerator / s.denominator) :=
        div_nonneg (mul_nonneg (by linarith) (by linarith)) h1p.le
      have hfrac1 : (1 - s.gMax) * (1 - pObj) / (1 - s.numerator / s.denominator) ≤ 1 := by
        rw [div_le_one h1p]
        nlinarith
      constructor <;> linarith
  refine ⟨hn0, hnd, ?_, ?_, ?_, ?_⟩
  · exact add_nonneg (mul_nonneg hphi ha0) hgNew.1
  · exact add_le_add (mul_le_mul_of_nonneg_left had hphi) hgNew.2
  · show 0 ≤ (phi * s.gMaxAccumulated + _) / (phi * s.gMaxDenominator + 1)
    exact div_nonneg (add_nonneg (mul_nonneg hphi ha0) hgNew.1)
      (by nlinarith)
  · show (phi * s.gMaxAccumulated + _) / (phi * s.gMaxDenominator + 1) ≤ 1
    rw [div_le_one (by nlinarith)]
    exact add_le_add (mul_le_mul_of_nonneg_left had hphi) hgNew.2

theorem tunerStep_inv (rho phi pObj : ℝ) (hrho : 0 ≤ rho) (hphi : 0 ≤ phi)
    (hp0 : 0 < pObj) (hp1 : pObj < 1) (b : Bool) (s : TunerState)
    (hs : TunerInv s) : TunerInv (tunerStep rho phi pObj b s) := by
  obtain ⟨hn0, hnd, ha0, had, hg0, hg1⟩ := hs
  have hbk := tunerBookkeep_inv rho hrho b s.numerator s.denominator hn0 hnd
  exact updateGMax_inv pObj phi hphi hp0 hp1 _
    ⟨hbk.1, hbk.2.1, ha0, had, hg0, hg1⟩ hbk.2.2

theorem tunerRun_inv (rho phi pObj g0 : ℝ) (hrho : 0 ≤ rho) (hphi : 0 ≤ phi)
    (hp0 : 0 < pObj) (hp1 : pObj < 1) (hg0 : 0 ≤ g0) (hg1 : g0 ≤ 1)
    (outcomes : List Bool) : TunerInv (tunerRun rho phi pObj g0 outcomes) := by
  have hinit : TunerInv (tunerInit g0 pObj) := by
    refine ⟨by simp [tunerInit], by simp [tunerInit], by simp [tunerInit],
      by simp [tunerInit], ?_, ?_⟩ <;> simpa [tunerInit]
  unfold tunerRun
  generalize tunerInit g0 pObj = s at hinit ⊢
  induction outcomes generalizing s with
  | nil => exact hinit
  | cons b rest ih =>
    exact ih _ (tunerStep_inv rho phi pObj hrho hphi hp0 hp1 b s hinit)

/-- C4: for every sequence of accept/reject outcomes during burn-in, with
nonnegative decay parameters `rho` and `phi`, a target acceptance rate
`p_obj` in `(0, 1)` and an initial ceiling `g_max` in `[0, 1]`, the
proposal-ceiling tuner `_update_g_max` keeps `g_max` within `[0, 1]`. -/
theorem gMax_stays_in_unit_interval
    (rho phi pObj g0 : ℝ) (hrho : 0 ≤ rho) (hphi : 0 ≤ phi)
    (hp0 : 0 < pObj) (hp1 : pObj < 1) (hg0 : 0 ≤ g0) (hg1 : g0 ≤ 1)
    (outcomes : List Bool) :
    0 ≤ (tunerRun rho phi pObj g0 outcomes).gMax ∧
    (tunerRun rho phi pObj g0 outcomes).gMax ≤ 1 :=
  ⟨(tunerRun_inv rho phi pObj g0 hrho hphi hp0 hp1 hg0 hg1 outcomes).2.2.2.2.1,
   (tunerRun_inv rho phi pObj g0 hrho hphi hp0 hp1 hg0 hg1 outcomes).2.2.2.2.2⟩

/-- Witness for C4 at the source's default parameters
(`rho = 0.99`, `phi = 0.999`, `p_obj = 0.3`) and one accept followed by one
reject. -/
theorem gMax_stays_in_unit_interval_witness :
    0 ≤ (tunerRun (99 / 100) (999 / 1000) (3 / 10) (9 / 10) [true, false]).gMax ∧
    (tunerRun (99 / 100) (999 / 1000) (3 / 10) (9 / 10) [true, false]).gMax ≤ 1 :=
  gMax_stays_in_unit_interval _ _ _ _ (by norm_num) (by norm_num) (by norm_num)
    (by norm_num) (by norm_num) (by norm_num) _

/-! ## The single-chain Metropolis-Hastings step -/

/-- C3 (amended): in `_mh_step_truncated` the candidate is accepted exactly
when the uniform draw satisfies
`u < exp((L_new + T_new) - (L_last + T_last))` — the truncated proposal
log-probabilities enter the exponent with the sign OPPOSITE to the claimed
`(L_new - T_new) - (L_last - T_last)`; since `u` is uniform on `[0, 1)` the
acceptance probability is `min(1, exp((L_new + T_new) - (L_last + T_last)))`.
On accept the new tree is pushed with a fresh multiplicity counter 1 and
`_l_last` becomes `L_new`; on reject the current tree's multiplicity counter
is incremented by 1. -/
theorem mhStepTruncated_acceptance_rule
    (rho : ℝ) (newTree : MTree) (lNew tNew tLast u : ℝ) (s : MHChainState) :
    (u < Real.exp ((lNew + tNew) - (s.lLast + tLast)) →
      mhStepTruncated rho newTree lNew tNew tLast u s =
        { metatreeList := s.metatreeList ++ [newTree]
          countList := s.countList ++ [1]
          lLast := lNew
          lLog := s.lLog ++ [lNew]
          numProposed := s.numProposed + 1
          numAccepted := s.numAccepted + 1
          numerator := rho * s.numerator + 1
          denominator := rho * s.denominator + 1 }) ∧
    (¬ u < Real.exp ((lNew + tNew) - (s.lLast + tLast)) →
      mhStepTruncated rho newTree lNew tNew tLast u s =
        { s with
          countList := incLast s.countList
          lLog := s.lLog ++ [s.lLast]
          numProposed := s.numProposed + 1
          numerator := rho * s.numerator
          denominator := rho * s.denominator + 1 }) := by
  have harg : lNew - tLast - s.lLast + tNew = (lNew + tNew) - (s.lLast + tLast) := by
    ring
  constructor <;> intro h <;>
    simp [mhStepTruncated, harg, h, tunerBookkeep]

/-- Witness for the amended C3: with all log quantities 0 and `u = 0` the
step accepts and pushes the new tree with counter 1. -/
theorem mhStepTruncated_acceptance_rule_witness :
    mhStepTruncated 1 (MTree.leaf 1) 0 0 0 0 ⟨[MTree.leaf 0], [1], 0, [], 1, 1, 0, 0⟩ =
      { metatreeList := [MTree.leaf 0] ++ [MTree.leaf 1]
        countList := [1] ++ [1]
        lLast := 0
        lLog := [] ++ [(0 : ℝ)]
        numProposed := 1 + 1
        numAccepted := 1 + 1
        numerator := 1 * 0 + 1
        denominator := 1 * 0 + 1 } :=
  (mhStepTruncated_acceptance_rule 1 (MTree.leaf 1) 0 0 0 0 _).1
    (Real.exp_pos _)

/-- Counterexample to C3 as stated: with `L_new = L_last = T_last = 0`,
`T_new = 1` and the uniform draw `u = 1/2`, the source step ACCEPTS (its
exponent is `exp 1 > 1/2`, so the counter list becomes `[1, 1]`), although
the claimed acceptance probability
`min(1, exp((L_new - T_new) - (L_last - T_last))) = exp (-1) < 1/2` would
reject this draw. -/
theorem mhStepTruncated_claim_formula_counterexample :
    (mhStepTruncated 1 (MTree.leaf 1) 0 1 0 (1 / 2)
        ⟨[MTree.leaf 0], [1], 0, [], 1, 1, 0, 0⟩).countList = [1, 1] ∧
    ¬ ((1 / 2 : ℝ) < Real.exp (((0 : ℝ) - 1) - (0 - 0))) := by
  have h2 : (2 : ℝ) < Real.exp 1 := by
    have := Real.exp_one_gt_d9
    linarith
  constructor
  · have hacc : (2 : ℝ)⁻¹ < Real.exp 1 := by
      have : (2 : ℝ)⁻¹ < 2 := by norm_num
      linarith
    simp [mhStepTruncated, hacc]
  · rw [not_lt]
    have hrw : Real.exp (((0 : ℝ) - 1) - (0 - 0)) = (Real.exp 1)⁻¹ := by
      norm_num [Real.exp_neg]
    rw [hrw]
    calc (Real.exp 1)⁻¹ ≤ (2 : ℝ)⁻¹ := by
          apply inv_anti₀ (by norm_num) h2.le
      _ ≤ 1 / 2 := by norm_num

/-! ## The MTMCMC driver control flow -/

/-- C5: whenever the total number of features is 1 the `_MTMCMC` driver skips
the Metropolis-Hastings sampling loops entirely (zero `_mh_step_truncated`
calls are executed) and returns exactly the single initial tree with the
weight vector `[1]`, independently of the proposal and acceptance streams. -/
theorem mtmcmc_single_feature_shortcircuit
    (dimCont burnIn numMetatrees : ℕ) (init : MTree)
    (props : ℕ → MTree) (accs : ℕ → Bool) :
    mtmcmc dimCont 1 burnIn numMetatrees init props accs = (([init], [1]), 0) := by
  simp [mtmcmc]

theorem mhStepOutcome_counters (newTree : MTree) (accept : Bool) (s : MCMCState) :
    (mhStepOutcome newTree accept s).numProposed = s.numProposed + 1 ∧
    (mhStepOutcome newTree accept s).steps = s.steps + 1 := by
  cases accept <;> simp [mhStepOutcome]

theorem mhLoop_spec (props : ℕ → MTree) (accs : ℕ → Bool) (target : ℕ) :
    ∀ (fuel : ℕ) (s : MCMCState), target - s.numProposed ≤ fuel →
      (mhLoop props accs target fuel s).numProposed = max s.numProposed target ∧
      (mhLoop props accs target fuel s).steps = s.steps + (target - s.numProposed) := by
  intro fuel
  induction fuel with
  | zero =>
    intro s h
    have hle : target ≤ s.numProposed := by omega
    rw [mhLoop]
    constructor
    · omega
    · omega
  | succ fuel ih =>
    intro s h
    rw [mhLoop]
    by_cases hlt : s.numProposed < target
    · rw [if_pos hlt]
      have hstep := mhStepOutcome_counters (props s.steps) (accs s.steps) s
      obtain ⟨h1, h2⟩ := ih (mhStepOutcome (props s.steps) (accs s.steps) s)
        (by rw [hstep.1]; omega)
      rw [h1, hstep.1, h2, hstep.2]
      constructor
      · omega
      · omega
    · rw [if_neg hlt]
      constructor
      · omega
      · omega

theorem mtmcmc_steps (dimCont dimFeatures burnIn numMetatrees : ℕ) (init : MTree)
    (props : ℕ → MTree) (accs : ℕ → Bool) (hdim : dimFeatures ≠ 1) :
    (mtmcmc dimCont dimFeatures burnIn numMetatrees init props accs).2 =
      burnIn + numMetatrees - 1 := by
  unfold mtmcmc
  rw [if_neg hdim]
  dsimp only
  obtain ⟨h1p, h1s⟩ :=
    mhLoop_spec props accs burnIn burnIn ⟨[init], [1], 1, 1, 0⟩ (by omega)
  obtain ⟨h2p, h2s⟩ :=
    mhLoop_spec props accs (burnIn + numMetatrees) (burnIn + numMetatrees)
      { mhLoop props accs burnIn burnIn ⟨[init], [1], 1, 1, 0⟩ with
        countList :=
          setLast (mhLoop props accs burnIn burnIn ⟨[init], [1], 1, 1, 0⟩).countList 1 }
      (by omega)
  rw [h2s]
  dsimp only
  rw [h1s, h1p]
  dsimp only
  omega

/-- C9 (amended): for every run with more than one feature, `_MTMCMC`
executes exactly `burn_in + num_metatrees - 1` Metropolis-Hastings steps —
one less than the claimed `burn_in + num_metatrees`, because the initial
deterministic tree already counts as the first proposed sample
(`_num_proposed` starts at 1) — with no other retry or termination
mechanism. -/
theorem mtmcmc_step_budget (dimCont dimFeatures burnIn numMetatrees : ℕ)
    (init : MTree) (props : ℕ → MTree) (accs : ℕ → Bool)
    (hdim : dimFeatures ≠ 1) :
    (mtmcmc dimCont dimFeatures burnIn numMetatrees init props accs).2 =
      burnIn + numMetatrees - 1 :=
  mtmcmc_steps dimCont dimFeatures burnIn numMetatrees init props accs hdim

/-- Witness for the amended C9 at the source's default budget
(`burn_in = 100`, `num_metatrees = 500`): 599 steps are executed. -/
theorem mtmcmc_step_budget_witness :
    (mtmcmc 0 2 100 500 (MTree.leaf 0) (fun _ => MTree.leaf 0)
      (fun _ => true)).2 = 100 + 500 - 1 :=
  mtmcmc_step_budget 0 2 100 500 (MTree.leaf 0) (fun _ => MTree.leaf 0)
    (fun _ => true) (by decide)

/-- Counterexample to C9 as stated: with `burn_in = 1` and
`num_metatrees = 1` (and two features) the driver executes exactly 1
Metropolis-Hastings step, not the claimed `burn_in + num_metatrees = 2`. -/
theorem mtmcmc_step_budget_counterexample :
    (mtmcmc 0 2 1 1 (MTree.leaf 0) (fun _ => MTree.leaf 0) (fun _ => true)).2 = 1 ∧
    (1 : ℕ) ≠ 1 + 1 :=
  ⟨(mtmcmc_steps 0 2 1 1 (MTree.leaf 0) (fun _ => MTree.leaf 0)
      (fun _ => true) (by decide)).trans (by decide),
   by decide⟩

/-! ## The update_posterior dispatcher and beta_vec validation -/

/-- C2 evaluation at a failing input: for the invalid `alg_type` string
`"MTMCM"` (any string outside the four supported values behaves the same
because the dispatch has no `else` branch), `update_posterior` raises NO
error and returns with `hn_metatree_list` / `hn_metatree_prob_vec`
unchanged — it silently does nothing instead of raising the
`ParameterFormatError` required by the specification. -/
theorem updatePosterior_invalid_alg_silently_ignored
    (runBranch : AlgBranch → PosteriorState → Except MTError PosteriorState)
    (s : PosteriorState) :
    updatePosteriorRun "MTMCM" runBranch s = .ok s := by
  simp [updatePosteriorRun, updatePosteriorDispatch]

/-- C10: when the run is not short-circuited by the single-feature early
return, the `beta_vec` handling of `_REMTMCMC` raises a
`ParameterFormatError` if and only if some element of the user-supplied
`beta_vec` lies outside `[0, 1]`; in particular every `beta_vec` whose
elements all lie in `[0, 1]` is accepted, no matter whether it is strictly
increasing or ends in 1. -/
theorem remtmcmc_betaVec_validation (dimFeatures : ℕ) (bv : List ℚ)
    (hdim : dimFeatures ≠ 1) :
    (remtmcmcBetaPhase dimFeatures (some bv) = true ↔ ∃ b ∈ bv, b < 0 ∨ 1 < b) ∧
    ((∀ b ∈ bv, 0 ≤ b ∧ b ≤ 1) → remtmcmcBetaPhase dimFeatures (some bv) = false) := by
  have hphase : remtmcmcBetaPhase dimFeatures (some bv) = betaVecRaises bv := by
    simp [remtmcmcBetaPhase, hdim]
  constructor
  · rw [hphase]
    simp only [betaVecRaises, Bool.or_eq_true, List.any_eq_true, decide_eq_true_eq]
    constructor
    · rintro (⟨b, hb, h⟩ | ⟨b, hb, h⟩)
      exacts [⟨b, hb, Or.inl h⟩, ⟨b, hb, Or.inr h⟩]
    · rintro ⟨b, hb, h | h⟩
      exacts [Or.inl ⟨b, hb, h⟩, Or.inr ⟨b, hb, h⟩]
  · intro hall
    rw [hphase]
    simp only [betaVecRaises, Bool.or_eq_false_iff, List.any_eq_false, decide_eq_true_eq]
    exact ⟨fun b hb => not_lt.mpr (hall b hb).1, fun b hb => not_lt.mpr (hall b hb).2⟩

/-- Witness for C10: the schedule `[1, 0]` — not increasing and not ending
in 1, but inside `[0, 1]` — passes the validation without an error. -/
theorem remtmcmc_betaVec_validation_witness :
    remtmcmcBetaPhase 2 (some [1, 0]) = false :=
  (remtmcmc_betaVec_validation 2 [1, 0] (by decide)).2 (by
    intro b hb
    rcases List.mem_cons.mp hb with rfl | hb
    · norm_num
    · rcases List.mem_cons.mp hb with rfl | hb
      · norm_num
      · simp at hb)

/-! ## Lemmas about the replica-exchange swap -/

theorem getLastD_setLast {α : Type} (l : List α) (a d : α) :
    (setLast l a).getLastD d = a := by
  simp [setLast, List.getLastD_concat]

theorem getD_set_self {α : Type} (l : List α) (i : ℕ) (a d : α)
    (h : i < l.length) : (l.set i a).getD i d = a := by
  rw [List.getD_eq_getElem _ _ (by simpa using h)]
  exact List.getElem_set_self (by simpa using h)

theorem getD_set_ne {α : Type} (l : List α) (i j : ℕ) (a d : α) (h : i ≠ j) :
    (l.set i a).getD j d = l.getD j d := by
  by_cases hj : j < l.length
  · rw [List.getD_eq_getElem _ _ (by simpa using hj), List.getD_eq_getElem _ _ hj]
    exact List.getElem_set_ne h _
  · rw [List.getD_eq_default _ _ (by simpa using le_of_not_lt hj),
      List.getD_eq_default _ _ (le_of_not_lt hj)]

theorem getD_length_sub_one {α : Type} (l : List α) (d : α) :
    l.getD (l.length - 1) d = l.getLastD d := by
  rw [List.getD_eq_getD_get?, List.getLastD_eq_getLast?, List.getLast?_eq_getElem?,
    List.get?_eq_getElem?]

theorem getD_concat_sub_two {α : Type} (L : List α) (x d : α) (h : L ≠ []) :
    (L ++ [x]).getD ((L ++ [x]).length - 2) d = L.getLastD d := by
  have hlen : (L ++ [x]).length = L.length + 1 := by simp
  rw [hlen]
  cases hL : L with
  | nil => exact absurd hL h
  | cons a t =>
    have h1 : (a :: t).length + 1 - 2 = (a :: t).length - 1 := by
      simp
    rw [h1, List.getD_append _ _ _ _ (by simp), getD_length_sub_one]

theorem replicaSwapAttempt_betaVec (s : REState) (j : ℕ) (u : ℝ) :
    (replicaSwapAttempt s j u).betaVec = s.betaVec := by
  unfold replicaSwapAttempt
  dsimp only
  split_ifs <;> rfl

theorem replicaExchange_betaVec (draws : List (ℕ × ℝ)) (s : REState) :
    (replicaExchange draws s).betaVec = s.betaVec := by
  have aux : ∀ (ds : List (ℕ × ℝ)) (st : REState),
      (ds.foldl (fun st d => replicaSwapAttempt st d.1 d.2) st).betaVec = st.betaVec := by
    intro ds
    induction ds with
    | nil => intro st; rfl
    | cons d rest ih =>
      intro st
      rw [List.foldl_cons, ih, replicaSwapAttempt_betaVec]
  unfold replicaExchange
  rw [aux]

/-- C6: each swap attempt of `_replica_exchange_memory_efficient` works on an
adjacent chain pair `(j, j+1)` (the pair index is drawn uniformly by
`rng.choice(num_chains - 1)`); with acceptance condition
`u < exp(L_j*beta_{j+1} + L_{j+1}*beta_j - L_j*beta_j - L_{j+1}*beta_{j+1})`
(acceptance probability `min(1, exp(...))` for a uniform `u`) it exchanges
the two chains' current trees and stored log likelihoods in place, leaves
every other chain's current tree and log likelihood unchanged, and never
alters the temperature schedule `beta_vec` — neither in a single attempt nor
over a whole exchange round. -/
theorem replicaSwapAttempt_spec (s : REState) (j : ℕ) (u : ℝ)
    (hj : j + 1 < s.numChains)
    (hlen : s.lists.length = s.numChains)
    (hll : s.lLasts.length = s.numChains)
    (hne1 : s.lists.getD (j + 1) [] ≠ []) :
    (replicaSwapAttempt s j u).betaVec = s.betaVec ∧
    (u < Real.exp (s.lLasts.getD j 0 * s.betaVec.getD (j + 1) 0 +
        s.lLasts.getD (j + 1) 0 * s.betaVec.getD j 0 -
        s.lLasts.getD j 0 * s.betaVec.getD j 0 -
        s.lLasts.getD (j + 1) 0 * s.betaVec.getD (j + 1) 0) →
      currentTree (replicaSwapAttempt s j u) j = currentTree s (j + 1) ∧
      currentTree (replicaSwapAttempt s j u) (j + 1) = currentTree s j ∧
      (replicaSwapAttempt s j u).lLasts.getD j 0 = s.lLasts.getD (j + 1) 0 ∧
      (replicaSwapAttempt s j u).lLasts.getD (j + 1) 0 = s.lLasts.getD j 0 ∧
      ∀ i, i ≠ j → i ≠ j + 1 →
        currentTree (replicaSwapAttempt s j u) i = currentTree s i ∧
        (replicaSwapAttempt s j u).lLasts.getD i 0 = s.lLasts.getD i 0) ∧
    (¬ u < Real.exp (s.lLasts.getD j 0 * s.betaVec.getD (j + 1) 0 +
        s.lLasts.getD (j + 1) 0 * s.betaVec.getD j 0 -
        s.lLasts.getD j 0 * s.betaVec.getD j 0 -
        s.lLasts.getD (j + 1) 0 * s.betaVec.getD (j + 1) 0) →
      replicaSwapAttempt s j u = s) ∧
    (∀ (draws : List (ℕ × ℝ)) (s' : REState),
      (replicaExchange draws s').betaVec = s'.betaVec) := by
  have hjlt : j < s.lists.length := by rw [hlen]; omega
  have hj1lt : j + 1 < s.lists.length := by rw [hlen]; omega
  have hjll : j < s.lLasts.length := by rw [hll]; omega
  have hj1ll : j + 1 < s.lLasts.length := by rw [hll]; omega
  have hnej : j ≠ j + 1 := by omega
  refine ⟨replicaSwapAttempt_betaVec s j u, ?_, ?_,
    fun draws s' => replicaExchange_betaVec draws s'⟩
  · intro hacc
    by_cases hend : j = s.numChains - 2
    · unfold replicaSwapAttempt currentTree
      dsimp only
      rw [if_pos hacc, if_pos hend]
      dsimp only
      refine ⟨?_, ?_, ?_, ?_, ?_⟩
      · rw [getD_set_self _ _ _ _ (by rw [List.length_set]; exact hjlt),
          getLastD_setLast, getD_concat_sub_two _ _ _ hne1]
      · rw [getD_set_ne _ _ _ _ _ hnej, getD_set_self _ _ _ _ hj1lt,
          List.getLastD_concat]
      · rw [getD_set_ne _ _ _ _ _ (Ne.symm hnej),
          getD_set_self _ _ _ _ hjll]
      · rw [getD_set_self _ _ _ _ (by rw [List.length_set]; exact hj1ll)]
      · intro i hij hij1
        constructor
        · rw [getD_set_ne _ _ _ _ _ (Ne.symm hij),
            getD_set_ne _ _ _ _ _ (Ne.symm hij1)]
        · rw [getD_set_ne _ _ _ _ _ (Ne.symm hij1),
            getD_set_ne _ _ _ _ _ (Ne.symm hij)]
    · unfold replicaSwapAttempt currentTree
      dsimp only
      rw [if_pos hacc, if_neg hend]
      dsimp only
      refine ⟨?_, ?_, ?_, ?_, ?_⟩
      · rw [getD_set_self _ _ _ _ (by rw [List.length_set]; exact hjlt),
          getLastD_setLast]
      · rw [getD_set_ne _ _ _ _ _ hnej, getD_set_self _ _ _ _ hj1lt,
          getLastD_setLast]
      · rw [getD_set_ne _ _ _ _ _ (Ne.symm hnej),
          getD_set_self _ _ _ _ hjll]
      · rw [getD_set_self _ _ _ _ (by rw [List.length_set]; exact hj1ll)]
      · intro i hij hij1
        constructor
        · rw [getD_set_ne _ _ _ _ _ (Ne.symm hij),
            getD_set_ne _ _ _ _ _ (Ne.symm hij1)]
        · rw [getD_set_ne _ _ _ _ _ (Ne.symm hij1),
            getD_set_ne _ _ _ _ _ (Ne.symm hij)]
  · intro hrej
    unfold replicaSwapAttempt
    dsimp only
    rw [if_neg hrej]

/-- Witness for C6: a two-chain state with log likelihoods 0, where the swap
attempt on the pair `(0, 1)` with draw `u = 0` accepts, exchanges the two
current trees, and leaves `beta_vec` unchanged. -/
theorem replicaSwapAttempt_spec_witness :
    (replicaSwapAttempt
        ⟨[[MTree.leaf 0], [MTree.leaf 1]], [[1], [1]], [0, 0], [1 / 2, 1], [], [], 2⟩
        0 0).betaVec =
      (⟨[[MTree.leaf 0], [MTree.leaf 1]], [[1], [1]], [0, 0], [1 / 2, 1], [], [], 2⟩ :
        REState).betaVec ∧
    currentTree (replicaSwapAttempt
        ⟨[[MTree.leaf 0], [MTree.leaf 1]], [[1], [1]], [0, 0], [1 / 2, 1], [], [], 2⟩
        0 0) 0 =
      currentTree
        ⟨[[MTree.leaf 0], [MTree.leaf 1]], [[1], [1]], [0, 0], [1 / 2, 1], [], [], 2⟩ 1 ∧
    currentTree (replicaSwapAttempt
        ⟨[[MTree.leaf 0], [MTree.leaf 1]], [[1], [1]], [0, 0], [1 / 2, 1], [], [], 2⟩
        0 0) 1 =
      currentTree
        ⟨[[MTree.leaf 0], [MTree.leaf 1]], [[1], [1]], [0, 0], [1 / 2, 1], [], [], 2⟩ 0 := by
  obtain ⟨h1, h2, -, -⟩ :=
    replicaSwapAttempt_spec
      ⟨[[MTree.leaf 0], [MTree.leaf 1]], [[1], [1]], [0, 0], [1 / 2, 1], [], [], 2⟩
      0 0 (by norm_num) rfl rfl
      (by simp [List.getD_cons_succ, List.getD_cons_zero])
  have hacc := h2 (Real.exp_pos _)
  exact ⟨h1, hacc.1, hacc.2.1⟩

/-! ## The marginal-likelihood recursion -/

theorem updChildren_empty_contrib (dimCont : ℕ) (leafLL : List Obs → ℝ)
    (k : ℕ) (th : List ℚ) (n : ℕ) (data : List Obs) :
    ∀ (cs : PTreeList) (i0 j : ℕ), j < cs.length →
      (partitionObs dimCont k th n (i0 + j) data).isEmpty = true →
      (updChildren dimCont leafLL k th n data i0 cs).2.getD j 0 = 0 := by
  suffices h : ∀ (m : ℕ) (cs : PTreeList), cs.length ≤ m → ∀ (i0 j : ℕ),
      j < cs.length →
      (partitionObs dimCont k th n (i0 + j) data).isEmpty = true →
      (updChildren dimCont leafLL k th n data i0 cs).2.getD j 0 = 0 by
    exact fun cs i0 j hj hemp => h cs.length cs le_rfl i0 j hj hemp
  intro m
  induction m with
  | zero =>
    intro cs hcs i0 j hj hemp
    omega
  | succ m ih =>
    intro cs hcs i0 j hj hemp
    cases cs with
    | nil => simp [PTreeList.length] at hj
    | cons c cs' =>
      rw [updChildren]
      cases j with
      | zero =>
        rw [Nat.add_zero] at hemp
        dsimp only
        rw [if_pos hemp]
        simp
      | succ j' =>
        dsimp only
        simp only [List.getD_cons_succ]
        apply ih cs' (by simpa [PTreeList.length] using hcs) (i0 + 1) j'
          (by simpa [PTreeList.length] using hj)
        rw [show i0 + 1 + j' = i0 + (j' + 1) by omega]
        exact hemp

/-- C7: at every inner node, `_update_posterior_recursion_batch` returns
`total = logaddexp(log(1 - h_g_prior) + leaf_log_likelihood, split_term)`
with `split_term = log(h_g_prior) + Σ children contributions`, updates the
node's `h_g` to `exp(split_term - total)`, and gives every child with an
empty data partition a contribution of exactly 0 in that sum. -/
theorem updRecBatch_combine
    (dimCont : ℕ) (leafLL : List Obs → ℝ) (hG : ℝ) (k : ℕ) (th : List ℚ)
    (children : PTreeList) (data : List Obs) :
    (updRecBatch dimCont leafLL (.mkNode hG k th children) data).2 =
      logaddexp (Real.log (1 - hG) + leafLL data)
        (Real.log hG +
          (updChildren dimCont leafLL k th children.length data 0 children).2.sum) ∧
    hGRoot (updRecBatch dimCont leafLL (.mkNode hG k th children) data).1 =
      Real.exp ((Real.log hG +
          (updChildren dimCont leafLL k th children.length data 0 children).2.sum) -
        (updRecBatch dimCont leafLL (.mkNode hG k th children) data).2) ∧
    (∀ i : ℕ, i < children.length →
      (partitionObs dimCont k th children.length i data).isEmpty = true →
      (updChildren dimCont leafLL k th children.length data 0 children).2.getD i 0 = 0) := by
  refine ⟨?_, ?_, ?_⟩
  · rw [updRecBatch]
  · rw [updRecBatch]
    rfl
  · intro i hi hemp
    exact updChildren_empty_contrib dimCont leafLL k th children.length data
      children 0 i hi (by simpa using hemp)

/-- Witness for C7: a node with two leaf children and one categorical data
row routed entirely to child 0, so that child 1 has an empty partition and
contributes exactly 0. -/
theorem updRecBatch_combine_witness :
    (updRecBatch 0 (fun _ => (0 : ℝ))
        (.mkNode (1 / 2) 0 [] (.cons (.mkLeaf 0) (.cons (.mkLeaf 0) .nil)))
        [⟨[], [0], 0⟩]).2 =
      logaddexp (Real.log (1 - (1 / 2 : ℝ)) + (0 : ℝ))
        (Real.log (1 / 2 : ℝ) +
          (updChildren 0 (fun _ => (0 : ℝ)) 0 []
            (PTreeList.cons (.mkLeaf 0) (.cons (.mkLeaf 0) .nil)).length
            [⟨[], [0], 0⟩] 0 (.cons (.mkLeaf 0) (.cons (.mkLeaf 0) .nil))).2.sum) ∧
    hGRoot (updRecBatch 0 (fun _ => (0 : ℝ))
        (.mkNode (1 / 2) 0 [] (.cons (.mkLeaf 0) (.cons (.mkLeaf 0) .nil)))
        [⟨[], [0], 0⟩]).1 =
      Real.exp ((Real.log (1 / 2 : ℝ) +
          (updChildren 0 (fun _ => (0 : ℝ)) 0 []
            (PTreeList.cons (.mkLeaf 0) (.cons (.mkLeaf 0) .nil)).length
            [⟨[], [0], 0⟩] 0 (.cons (.mkLeaf 0) (.cons (.mkLeaf 0) .nil))).2.sum) -
        (updRecBatch 0 (fun _ => (0 : ℝ))
          (.mkNode (1 / 2) 0 [] (.cons (.mkLeaf 0) (.cons (.mkLeaf 0) .nil)))
          [⟨[], [0], 0⟩]).2) ∧
    (updChildren 0 (fun _ => (0 : ℝ)) 0 []
        (PTreeList.cons (.mkLeaf 0) (.cons (.mkLeaf 0) .nil)).length
        [⟨[], [0], 0⟩] 0 (.cons (.mkLeaf 0) (.cons (.mkLeaf 0) .nil))).2.getD 1 0 = 0 :=
  ⟨(updRecBatch_combine 0 (fun _ => (0 : ℝ)) (1 / 2) 0 []
      (.cons (.mkLeaf 0) (.cons (.mkLeaf 0) .nil)) [⟨[], [0], 0⟩]).1,
   (updRecBatch_combine 0 (fun _ => (0 : ℝ)) (1 / 2) 0 []
      (.cons (.mkLeaf 0) (.cons (.mkLeaf 0) .nil)) [⟨[], [0], 0⟩]).2.1,
   (updRecBatch_combine 0 (fun _ => (0 : ℝ)) (1 / 2) 0 []
      (.cons (.mkLeaf 0) (.cons (.mkLeaf 0) .nil)) [⟨[], [0], 0⟩]).2.2 1
     (by norm_num [PTreeList.length]) (by decide)⟩
